import Mathlib

/-!
Verification of the vmap logical-to-physical transform core
(`aten/src/ATen/VmapTransforms.h`).

The core performs pure index algebra and layout normalization: it never
touches tensor data, only shapes and batch-dimension metadata.  We therefore
embed a tensor by its shape (a `List Nat`) together with its batch-dimension
annotations, and each operation by its action on shapes and level sets.
-/

namespace Vmap

/-- Modelled from the spec: the compile-time maximum vmap nesting depth
(the width of the level bitset, `kVmapNumLevels` from `BatchedTensorImpl.h`,
which is not part of the sources here); the spec fixes it only as a
compile-time constant, we use 64. -/
def kVmapNumLevels : Nat := 64

/-- A batch dimension: a (vmap level, physical dimension index) pair,
as attached to a logical value by the external batched-tensor wrapper. -/
structure BatchDim where
  level : Nat
  dim : Nat
deriving Repr, DecidableEq

/-- A tensor as the core sees it: either a plain (physical, de-batched)
tensor, known by its shape, or a logical/batched value wrapping a physical
shape plus an ordered list of batch dimensions. -/
inductive Tensor where
  | plain (shape : List Nat)
  | batched (physShape : List Nat) (bdims : List BatchDim)
deriving Repr, DecidableEq

/-- Modelled from the spec: the external wrapper's predicate
`isBatched(tensor)` (declared in `BatchedTensorImpl.h`, not in the sources):
is this value a logical/batched value? -/
def isBatched : Tensor → Bool
  | .plain _ => false
  | .batched _ _ => true

/-- A level set is a fixed-width bitset (`std::bitset<kVmapNumLevels>`),
embedded as a natural-number bitmask: bit `i` set iff level `i` is present. -/
abbrev LevelSetBits := Nat

/-- Modelled from the spec: `ascendingLevels()` — the set bits of a level
set from lowest to highest, the canonical front-to-back placement order for
batch dimensions. -/
def ascendingLevels (s : LevelSetBits) : List Nat :=
  (List.range kVmapNumLevels).filter (fun i => s.testBit i)

/-- Modelled from the spec: `cardinality(levels)` — the number of set bits
of the level bitset. -/
def levelSetCard (s : LevelSetBits) : Nat :=
  (ascendingLevels s).length

/-- Modelled from the spec: build the level bitset of a batch-dimension
list (bit `b.level` set for each batch dim `b`). -/
def createVmapLevelsBitset (bdims : List BatchDim) : LevelSetBits :=
  bdims.foldr (fun b acc => acc ||| (1 <<< b.level)) 0

/-- The level set carried by a logical value: empty for a plain tensor,
the levels of its batch dims otherwise. -/
def Tensor.levelSet : Tensor → LevelSetBits
  | .plain _ => 0
  | .batched _ bdims => createVmapLevelsBitset bdims

/-- Remove the entries of `shape` whose positions occur in `dims`,
keeping the remaining entries in their original order. -/
def removeDims (shape : List Nat) (dims : List Nat) : List Nat :=
  ((List.range shape.length).filter (fun i => !(decide (i ∈ dims)))).map
    (fun i => shape.getD i 0)

/-- The logical shape of a value: its shape with the batch-dimension
positions hidden. -/
def Tensor.logicalShape : Tensor → List Nat
  | .plain s => s
  | .batched phys bdims => removeDims phys (bdims.map (fun b => b.dim))

/-- The underlying physical shape of a value (batch dims still embedded at
their original positions for a batched value). -/
def Tensor.underlyingShape : Tensor → List Nat
  | .plain s => s
  | .batched phys _ => phys

/-- The ordered batch-dimension list of a value (empty for a plain one). -/
def Tensor.bdims : Tensor → List BatchDim
  | .plain _ => []
  | .batched _ bs => bs

/-- The physical dimension index holding level `l` on a batch-dim list
(0 if the level is absent; callers only use it at present levels). -/
def dimOfLevel (bdims : List BatchDim) (l : Nat) : Nat :=
  match bdims.find? (fun b => b.level == l) with
  | some b => b.dim
  | none => 0

/-- `VmapPhysicalView`: a physical tensor (known by its shape, all batch
dims at the front) plus the level bitset describing those front dims. -/
structure VmapPhysicalView where
  levels_ : LevelSetBits
  tensor_ : List Nat
deriving Repr, DecidableEq

/-- `tensor()` accessor. -/
def VmapPhysicalView.tensor (v : VmapPhysicalView) : List Nat :=
  v.tensor_

/-- Modelled from the spec: `numBatchDims() = cardinality(levels)`
(implementation not in the sources, only declared in the header). -/
def VmapPhysicalView.numBatchDims (v : VmapPhysicalView) : Nat :=
  levelSetCard v.levels_

/-- Modelled from the spec: `numLogicalDims() = tensor.rank - numBatchDims`
(implementation not in the sources, only declared in the header). -/
def VmapPhysicalView.numLogicalDims (v : VmapPhysicalView) : Nat :=
  v.tensor_.length - v.numBatchDims

/-- The constructor `VmapPhysicalView(Tensor&&, levels)` from the header:
`TORCH_INTERNAL_ASSERT(!isBatched(tensor))` — a fatal internal assertion,
modelled as `none`; otherwise the view stores the tensor and the levels. -/
def makePhysicalView (t : Tensor) (levels : LevelSetBits) :
    Option VmapPhysicalView :=
  if isBatched t then none else some ⟨levels, t.underlyingShape⟩

/-- Modelled from the spec: standard negative-index wrapping —
`logicalDim += numLogicalDims` if negative. -/
def wrapDim (logical_dim : Int) (n : Nat) : Int :=
  if logical_dim < 0 then logical_dim + n else logical_dim

/-- Modelled from the spec: `getPhysicalDim(logicalDim)` — wrap a negative
index by adding `numLogicalDims`; the user-facing out-of-range error
(modelled as `none`) if the wrapped index still falls outside
`[0, numLogicalDims)`; otherwise return `wrapped + numBatchDims`. -/
def VmapPhysicalView.getPhysicalDim (v : VmapPhysicalView)
    (logical_dim : Int) : Option Int :=
  let wrapped := wrapDim logical_dim v.numLogicalDims
  if 0 ≤ wrapped ∧ wrapped < (v.numLogicalDims : Int) then
    some (wrapped + v.numBatchDims)
  else none

/-- Modelled from the spec: `getPhysicalDims` — `getPhysicalDim`
elementwise, preserving order, failing if any element fails. -/
def VmapPhysicalView.getPhysicalDims (v : VmapPhysicalView)
    (logical_dims : List Int) : Option (List Int) :=
  logical_dims.mapM v.getPhysicalDim

/-- Pair each level of a list with consecutive front-dimension indices
starting at `i`. -/
def frontBatchDims : Nat → List Nat → List BatchDim
  | _, [] => []
  | i, l :: ls => ⟨l, i⟩ :: frontBatchDims (i + 1) ls

/-- Modelled from the spec: the batch-dim list `(level, index)` for
`index, level in enumerate(ascendingLevels(s))`. -/
def computeFrontBatchDimsFromLevels (s : LevelSetBits) : List BatchDim :=
  frontBatchDims 0 (ascendingLevels s)

/-- Modelled from the spec: `newLogicalFromPhysical(physical)` — wrap a
physical result whose leading `numBatchDims` dims correspond positionally
to `ascendingLevels()` into a logical (batched) value with batch-dim list
`(level, index)` for `index, level in enumerate(ascendingLevels())`. -/
def VmapPhysicalView.newLogicalFromPhysical (v : VmapPhysicalView)
    (physical : List Nat) : Tensor :=
  Tensor.batched physical (computeFrontBatchDimsFromLevels v.levels_)

/-- Modelled from the spec: permute the batch dims to the front — for each
level in ascending order the dimension holding that level moves to the next
front slot, the non-batch dimensions keep their original relative order
after the batch slots. -/
def permuteBatchDimsToFront (phys : List Nat) (bdims : List BatchDim) :
    List Nat :=
  (ascendingLevels (createVmapLevelsBitset bdims)).map
      (fun l => phys.getD (dimOfLevel bdims l) 0)
    ++ removeDims phys (bdims.map (fun b => b.dim))

namespace MultiBatchVmapTransform

/-- Modelled from the spec: the single-value
`MultiBatchVmapTransform::logicalToPhysical` (implementation not in the
sources) — permute all batch dims to the front and wrap in a
`VmapPhysicalView` with the value's own levels; a plain tensor yields an
empty level set and the tensor unchanged. -/
def logicalToPhysical : Tensor → VmapPhysicalView
  | .plain s => ⟨0, s⟩
  | .batched phys bdims =>
      ⟨createVmapLevelsBitset bdims, permuteBatchDimsToFront phys bdims⟩

/-- Modelled from the spec: the multi-value form applies the single-value
rule independently per value (no unification of levels across values). -/
def logicalToPhysicalList (ts : List Tensor) : List VmapPhysicalView :=
  ts.map logicalToPhysical

end MultiBatchVmapTransform

/-- Modelled from the spec: the union of the level sets of all the
values. -/
def unionLevelSet (ts : List Tensor) : LevelSetBits :=
  ts.foldr (fun t acc => t.levelSet ||| acc) 0

/-- Modelled from the spec: the maximum non-batch (logical) rank over the
values. -/
def maxLogicalRank (ts : List Tensor) : Nat :=
  ts.foldr (fun t m => max t.logicalShape.length m) 0

/-- The size supplied by value `t` at canonical level `l`: the true size of
its batch dim at that level if present, else a synthesized size-1
placeholder. -/
def broadcastBatchSizeAt (t : Tensor) (l : Nat) : Nat :=
  match t with
  | .plain _ => 1
  | .batched phys bdims =>
      match bdims.find? (fun b => b.level == l) with
      | some b => phys.getD b.dim 1
      | none => 1

/-- Modelled from the spec: the physical shape the broadcasting transform
gives one value — one front slot per canonical (ascending) union level,
then `maxRank - r` size-1 alignment dims, then the value's own logical
shape. -/
def broadcastShape (u : LevelSetBits) (maxRank : Nat) (t : Tensor) :
    List Nat :=
  (ascendingLevels u).map (broadcastBatchSizeAt t)
    ++ List.replicate (maxRank - t.logicalShape.length) 1
    ++ t.logicalShape

namespace BroadcastingVmapTransform

/-- Modelled from the spec: `BroadcastingVmapTransform::logicalToPhysical`
(implementation not in the sources) — every returned view carries the
union level set and the broadcast-aligned shape of its value. -/
def logicalToPhysical (ts : List Tensor) : List VmapPhysicalView :=
  ts.map (fun t =>
    ⟨unionLevelSet ts, broadcastShape (unionLevelSet ts) (maxLogicalRank ts) t⟩)

end BroadcastingVmapTransform

/-- A member call on a `VmapPhysicalView`. -/
inductive ViewOp where
  | tensorOp : ViewOp
  | getDim (d : Int) : ViewOp
  | getDims (ds : List Int) : ViewOp
  | newLogical (p : List Nat) : ViewOp
deriving Repr, DecidableEq

/-- The result a member call returns. -/
inductive ViewResult where
  | tensorR (s : List Nat) : ViewResult
  | dimR (d : Option Int) : ViewResult
  | dimsR (ds : Option (List Int)) : ViewResult
  | logicalR (t : Tensor) : ViewResult
deriving Repr, DecidableEq

/-- Modelled from the spec: a member call on a view, as a state-passing
step returning the view state after the call together with the result
(the spec's concurrency model makes every operation a pure function of the
view's stored tensor and levels, mutating nothing). -/
def runOp (v : VmapPhysicalView) : ViewOp → VmapPhysicalView × ViewResult
  | .tensorOp => (v, .tensorR v.tensor)
  | .getDim d => (v, .dimR (v.getPhysicalDim d))
  | .getDims ds => (v, .dimsR (v.getPhysicalDims ds))
  | .newLogical p => (v, .logicalR (v.newLogicalFromPhysical p))

/-- The view state after a sequence of member calls. -/
def runOps (v : VmapPhysicalView) (ops : List ViewOp) : VmapPhysicalView :=
  ops.foldl (fun s op => (runOp s op).1) v

/- ## Helper lemmas -/

theorem testBit_createVmapLevelsBitset (bdims : List BatchDim) (j : Nat) :
    (createVmapLevelsBitset bdims).testBit j = true ↔
      ∃ b ∈ bdims, b.level = j := by
  induction bdims with
  | nil => simp [createVmapLevelsBitset, Nat.zero_testBit]
  | cons b bs ih =>
    have hstep : createVmapLevelsBitset (b :: bs)
        = createVmapLevelsBitset bs ||| (1 <<< b.level) := rfl
    rw [hstep, Nat.testBit_lor, Nat.shiftLeft_eq, one_mul, Nat.testBit_two_pow]
    simp only [Bool.or_eq_true, decide_eq_true_eq, ih, List.mem_cons]
    constructor
    · rintro (⟨c, hc, rfl⟩ | rfl)
      · exact ⟨c, Or.inr hc, rfl⟩
      · exact ⟨b, Or.inl rfl, rfl⟩
    · rintro ⟨c, (rfl | hc), rfl⟩
      · exact Or.inr rfl
      · exact Or.inl ⟨c, hc, rfl⟩

theorem mem_ascendingLevels (s : LevelSetBits) (i : Nat) :
    i ∈ ascendingLevels s ↔ i < kVmapNumLevels ∧ s.testBit i = true := by
  simp [ascendingLevels, List.mem_filter, List.mem_range]

theorem ascendingLevels_zero : ascendingLevels 0 = [] := by
  simp [ascendingLevels, Nat.zero_testBit]

theorem map_level_frontBatchDims (ls : List Nat) (i : Nat) :
    (frontBatchDims i ls).map (fun b => b.level) = ls := by
  induction ls generalizing i with
  | nil => rfl
  | cons l ls ih => simp [frontBatchDims, ih]

theorem map_dim_frontBatchDims (ls : List Nat) (i : Nat) :
    (frontBatchDims i ls).map (fun b => b.dim) = List.range' i ls.length := by
  induction ls generalizing i with
  | nil => rfl
  | cons l ls ih => simp [frontBatchDims, ih, List.range'_succ]

theorem map_getD_range' (b a : List Nat) :
    (List.range' a.length b.length).map (fun i => (a ++ b).getD i 0) = b := by
  induction b generalizing a with
  | nil => rfl
  | cons x bs ih =>
    have hlen : bs.length + 1 = (x :: bs).length := rfl
    rw [show (x :: bs).length = bs.length + 1 from rfl, List.range'_succ,
      List.map_cons]
    have hhead : (a ++ x :: bs).getD a.length 0 = x := by
      rw [List.getD_append_right a (x :: bs) 0 a.length (Nat.le_refl _),
        Nat.sub_self, List.getD_cons_zero]
    have htail : List.map (fun i => (a ++ x :: bs).getD i 0)
        (List.range' (a.length + 1) bs.length) = bs := by
      have h1 : a ++ x :: bs = (a ++ [x]) ++ bs := List.append_cons a x bs
      have h2 : a.length + 1 = (a ++ [x]).length := by
        simp [List.length_append]
      rw [h1, h2]
      exact ih (a ++ [x])
    rw [hhead, htail]

theorem filter_not_mem_range (m n : Nat) :
    ((List.range (m + n)).filter (fun i => !(decide (i ∈ List.range m))))
      = List.range' m n := by
  have hsplit : List.range (m + n) = List.range' 0 m ++ List.range' m n := by
    rw [List.range_eq_range', Nat.add_comm m n, ← List.range'_append 0 m n 1]
    simp
  rw [hsplit, List.filter_append]
  have h1 : (List.range' 0 m).filter (fun i => !(decide (i ∈ List.range m)))
      = [] := by
    rw [List.filter_eq_nil_iff]
    intro a ha
    have : a < m := by
      have := List.mem_range'_1.1 ha
      omega
    simp [List.mem_range, this]
  have h2 : (List.range' m n).filter (fun i => !(decide (i ∈ List.range m)))
      = List.range' m n := by
    rw [List.filter_eq_self]
    intro a ha
    have : m ≤ a := (List.mem_range'_1.1 ha).1
    simp [List.mem_range]
    omega
  rw [h1, h2, List.nil_append]

theorem removeDims_append_range (a b : List Nat) :
    removeDims (a ++ b) (List.range a.length) = b := by
  unfold removeDims
  rw [List.length_append, filter_not_mem_range a.length b.length]
  exact map_getD_range' b a

theorem removeDims_nil (s : List Nat) : removeDims s [] = s := by
  have h := removeDims_append_range [] s
  simpa [List.range_eq_range'] using h

theorem createVmapLevelsBitset_frontBatchDims (s : LevelSetBits)
    (hs : ∀ j, s.testBit j = true → j < kVmapNumLevels) :
    createVmapLevelsBitset (computeFrontBatchDimsFromLevels s) = s := by
  apply Nat.eq_of_testBit_eq
  intro j
  have h1 : (createVmapLevelsBitset
      (computeFrontBatchDimsFromLevels s)).testBit j = true ↔
      s.testBit j = true := by
    rw [testBit_createVmapLevelsBitset]
    constructor
    · rintro ⟨b, hb, rfl⟩
      have hmem : b.level ∈ (frontBatchDims 0 (ascendingLevels s)).map
          (fun b => b.level) := List.mem_map_of_mem _ hb
      rw [map_level_frontBatchDims] at hmem
      exact ((mem_ascendingLevels _ _).1 hmem).2
    · intro hj
      have hmem : j ∈ ascendingLevels s :=
        (mem_ascendingLevels _ _).2 ⟨hs j hj, hj⟩
      rw [← map_level_frontBatchDims (ascendingLevels s) 0] at hmem
      obtain ⟨b, hb, hbl⟩ := List.mem_map.1 hmem
      exact ⟨b, hb, hbl⟩
  cases hL : (createVmapLevelsBitset
      (computeFrontBatchDimsFromLevels s)).testBit j
    <;> cases hR : s.testBit j <;> simp_all

/- ## C1: round-trip law -/

/-- C1. Round-trip law: for a logical value `x` whose batch-dim levels fit
in the level bitset, `MultiBatchVmapTransform.logicalToPhysical(x)`
followed by `newLogicalFromPhysical` on the identity-mapped physical
tensor reproduces a logical value with the same level set and the same
logical shape as `x`. -/
theorem multiBatch_roundTrip (x : Tensor)
    (h : ∀ b ∈ x.bdims, b.level < kVmapNumLevels) :
    ((MultiBatchVmapTransform.logicalToPhysical x).newLogicalFromPhysical
        (MultiBatchVmapTransform.logicalToPhysical x).tensor).levelSet
      = x.levelSet ∧
    ((MultiBatchVmapTransform.logicalToPhysical x).newLogicalFromPhysical
        (MultiBatchVmapTransform.logicalToPhysical x).tensor).logicalShape
      = x.logicalShape := by
  cases x with
  | plain s =>
    constructor
    · simp [MultiBatchVmapTransform.logicalToPhysical,
        VmapPhysicalView.newLogicalFromPhysical,
        computeFrontBatchDimsFromLevels, ascendingLevels_zero,
        Tensor.levelSet, createVmapLevelsBitset, frontBatchDims]
    · simp [MultiBatchVmapTransform.logicalToPhysical,
        VmapPhysicalView.newLogicalFromPhysical, VmapPhysicalView.tensor,
        computeFrontBatchDimsFromLevels, ascendingLevels_zero,
        Tensor.logicalShape, frontBatchDims, removeDims_nil]
  | batched phys bdims =>
    have hs : ∀ j, (createVmapLevelsBitset bdims).testBit j = true →
        j < kVmapNumLevels := by
      intro j hj
      obtain ⟨b, hb, rfl⟩ := (testBit_createVmapLevelsBitset bdims j).1 hj
      exact h b hb
    constructor
    · show createVmapLevelsBitset
          (computeFrontBatchDimsFromLevels (createVmapLevelsBitset bdims))
        = createVmapLevelsBitset bdims
      exact createVmapLevelsBitset_frontBatchDims _ hs
    · show removeDims (permuteBatchDimsToFront phys bdims)
          ((computeFrontBatchDimsFromLevels
            (createVmapLevelsBitset bdims)).map (fun b => b.dim))
        = removeDims phys (bdims.map (fun b => b.dim))
      rw [computeFrontBatchDimsFromLevels, map_dim_frontBatchDims,
        ← List.range_eq_range']
      unfold permuteBatchDimsToFront
      have hlen : (ascendingLevels (createVmapLevelsBitset bdims)).length
          = ((ascendingLevels (createVmapLevelsBitset bdims)).map
              (fun l => phys.getD (dimOfLevel bdims l) 0)).length := by
        rw [List.length_map]
      rw [hlen, removeDims_append_range]

/-- Witness for C1 at the header's worked example: physical shape
`[2,3,4]` with batch dims `(level 1, dim 0)` and `(level 2, dim 2)`. -/
theorem multiBatch_roundTrip_witness :
    (∀ b ∈ (Tensor.batched [2, 3, 4] [⟨1, 0⟩, ⟨2, 2⟩]).bdims,
        b.level < kVmapNumLevels) ∧
    (((MultiBatchVmapTransform.logicalToPhysical
          (Tensor.batched [2, 3, 4] [⟨1, 0⟩, ⟨2, 2⟩])).newLogicalFromPhysical
        (MultiBatchVmapTransform.logicalToPhysical
          (Tensor.batched [2, 3, 4] [⟨1, 0⟩, ⟨2, 2⟩])).tensor).levelSet
        = (Tensor.batched [2, 3, 4] [⟨1, 0⟩, ⟨2, 2⟩]).levelSet ∧
      ((MultiBatchVmapTransform.logicalToPhysical
          (Tensor.batched [2, 3, 4] [⟨1, 0⟩, ⟨2, 2⟩])).newLogicalFromPhysical
        (MultiBatchVmapTransform.logicalToPhysical
          (Tensor.batched [2, 3, 4] [⟨1, 0⟩, ⟨2, 2⟩])).tensor).logicalShape
        = (Tensor.batched [2, 3, 4] [⟨1, 0⟩, ⟨2, 2⟩]).logicalShape) :=
  ⟨by decide, multiBatch_roundTrip _ (by decide)⟩

/- ## C2: offset law -/

/-- C2. Offset law: for a view `v` and a logical dim `d` whose wrapped
index lies in `[0, numLogicalDims)`, `getPhysicalDim` returns the wrapped
index plus `numBatchDims()`; `getPhysicalDims` applies this elementwise,
preserving the order of the input indices. -/
theorem getPhysicalDim_offset (v : VmapPhysicalView) (d : Int)
    (ds : List Int)
    (hd : 0 ≤ wrapDim d v.numLogicalDims ∧
      wrapDim d v.numLogicalDims < (v.numLogicalDims : Int))
    (hds : ∀ e ∈ ds, 0 ≤ wrapDim e v.numLogicalDims ∧
      wrapDim e v.numLogicalDims < (v.numLogicalDims : Int)) :
    v.getPhysicalDim d
      = some (wrapDim d v.numLogicalDims + v.numBatchDims) ∧
    v.getPhysicalDims ds
      = some (ds.map (fun e => wrapDim e v.numLogicalDims + v.numBatchDims)) := by
  constructor
  · unfold VmapPhysicalView.getPhysicalDim
    simp only [if_pos hd]
  · induction ds with
    | nil => rfl
    | cons e es ih =>
      have he := hds e (List.mem_cons_self e es)
      have hes := fun x hx => hds x (List.mem_cons_of_mem e hx)
      unfold VmapPhysicalView.getPhysicalDims at *
      rw [List.mapM_cons]
      have h1 : v.getPhysicalDim e
          = some (wrapDim e v.numLogicalDims + v.numBatchDims) := by
        unfold VmapPhysicalView.getPhysicalDim
        simp only [if_pos he]
      rw [h1, ih hes]
      rfl

/-- Witness for C2: the view of Example 1 (tensor shape `[2,3,4,5]`,
levels `{1,3}`), `d = 1`, `ds = [0, 1]`. -/
theorem getPhysicalDim_offset_witness :
    ((0 ≤ wrapDim 1 (VmapPhysicalView.numLogicalDims
        ⟨(1 <<< 1) ||| (1 <<< 3), [2, 3, 4, 5]⟩) ∧
      wrapDim 1 (VmapPhysicalView.numLogicalDims
        ⟨(1 <<< 1) ||| (1 <<< 3), [2, 3, 4, 5]⟩)
        < ((VmapPhysicalView.numLogicalDims
            ⟨(1 <<< 1) ||| (1 <<< 3), [2, 3, 4, 5]⟩ : Nat) : Int)) ∧
     (∀ e ∈ ([0, 1] : List Int),
        0 ≤ wrapDim e (VmapPhysicalView.numLogicalDims
          ⟨(1 <<< 1) ||| (1 <<< 3), [2, 3, 4, 5]⟩) ∧
        wrapDim e (VmapPhysicalView.numLogicalDims
          ⟨(1 <<< 1) ||| (1 <<< 3), [2, 3, 4, 5]⟩)
          < ((VmapPhysicalView.numLogicalDims
              ⟨(1 <<< 1) ||| (1 <<< 3), [2, 3, 4, 5]⟩ : Nat) : Int))) ∧
    (VmapPhysicalView.getPhysicalDim
        ⟨(1 <<< 1) ||| (1 <<< 3), [2, 3, 4, 5]⟩ 1
      = some (wrapDim 1 (VmapPhysicalView.numLogicalDims
          ⟨(1 <<< 1) ||| (1 <<< 3), [2, 3, 4, 5]⟩)
        + VmapPhysicalView.numBatchDims
            ⟨(1 <<< 1) ||| (1 <<< 3), [2, 3, 4, 5]⟩) ∧
     VmapPhysicalView.getPhysicalDims
        ⟨(1 <<< 1) ||| (1 <<< 3), [2, 3, 4, 5]⟩ [0, 1]
      = some (([0, 1] : List Int).map
          (fun e => wrapDim e (VmapPhysicalView.numLogicalDims
              ⟨(1 <<< 1) ||| (1 <<< 3), [2, 3, 4, 5]⟩)
            + VmapPhysicalView.numBatchDims
                ⟨(1 <<< 1) ||| (1 <<< 3), [2, 3, 4, 5]⟩))) :=
  ⟨⟨by decide, by decide⟩,
    getPhysicalDim_offset ⟨(1 <<< 1) ||| (1 <<< 3), [2, 3, 4, 5]⟩ 1 [0, 1]
      (by decide) (by decide)⟩

/- ## C6: wrapping and the out-of-range error -/

/-- C6. `getPhysicalDim` wraps a negative logical index by adding
`numLogicalDims` and raises the user-facing out-of-range error (modelled
as `none`) exactly when the wrapped index is still outside
`[0, numLogicalDims)`; in particular `getPhysicalDim 5` on the Example 1
view, which has `numLogicalDims() = 2`, errors. -/
theorem getPhysicalDim_error_iff :
    (∀ (v : VmapPhysicalView) (d : Int),
      v.getPhysicalDim d = none ↔
        (wrapDim d v.numLogicalDims < 0 ∨
          (v.numLogicalDims : Int) ≤ wrapDim d v.numLogicalDims)) ∧
    VmapPhysicalView.numLogicalDims
        ⟨(1 <<< 1) ||| (1 <<< 3), [2, 3, 4, 5]⟩ = 2 ∧
    VmapPhysicalView.getPhysicalDim
        ⟨(1 <<< 1) ||| (1 <<< 3), [2, 3, 4, 5]⟩ 5 = none := by
  refine ⟨fun v d => ?_, by decide, by decide⟩
  unfold VmapPhysicalView.getPhysicalDim
  by_cases h : 0 ≤ wrapDim d v.numLogicalDims ∧
      wrapDim d v.numLogicalDims < (v.numLogicalDims : Int)
  · simp only [if_pos h]
    constructor
    · intro hc
      exact absurd hc (by simp)
    · intro hc
      omega
  · simp only [if_neg h]
    constructor
    · intro _
      omega
    · intro _
      trivial

/-- Witness for C6: the error direction applied at the Example 1 view and
logical dim 5. -/
theorem getPhysicalDim_error_iff_witness :
    VmapPhysicalView.getPhysicalDim
        ⟨(1 <<< 1) ||| (1 <<< 3), [2, 3, 4, 5]⟩ 5 = none :=
  (getPhysicalDim_error_iff.1
      ⟨(1 <<< 1) ||| (1 <<< 3), [2, 3, 4, 5]⟩ 5).2 (by decide)

/- ## C3: the multi-value MultiBatch transform is per-value -/

theorem logicalToPhysical_levels (t : Tensor) :
    (MultiBatchVmapTransform.logicalToPhysical t).levels_ = t.levelSet := by
  cases t <;> rfl

theorem getD_logicalToPhysicalList (ts : List Tensor) (i : Nat)
    (h : i < ts.length) :
    (MultiBatchVmapTransform.logicalToPhysicalList ts).getD i ⟨0, []⟩
      = MultiBatchVmapTransform.logicalToPhysical
          (ts.getD i (Tensor.plain [])) := by
  unfold MultiBatchVmapTransform.logicalToPhysicalList
  rw [List.getD_eq_getElem _ _ (by simpa using h), List.getElem_map,
    List.getD_eq_getElem _ _ h]

/-- C3. The multi-value `MultiBatchVmapTransform.logicalToPhysical`
treats each input independently: the `i`-th returned view carries exactly
the level set of the `i`-th input (no unification of levels across
values), and an unbatched input yields a view with an empty level set and
the tensor unchanged. -/
theorem multiBatch_list_independent (ts : List Tensor) (i : Nat)
    (h : i < ts.length) :
    ((MultiBatchVmapTransform.logicalToPhysicalList ts).getD i
        ⟨0, []⟩).levels_
      = (ts.getD i (Tensor.plain [])).levelSet ∧
    (∀ s, ts.getD i (Tensor.plain []) = Tensor.plain s →
      (MultiBatchVmapTransform.logicalToPhysicalList ts).getD i ⟨0, []⟩
        = ⟨0, s⟩) := by
  rw [getD_logicalToPhysicalList ts i h]
  constructor
  · exact logicalToPhysical_levels _
  · intro s hs
    rw [hs]
    rfl

/-- Witness for C3: two values with distinct levels, the second one
unbatched. -/
theorem multiBatch_list_independent_witness :
    (1 < ([Tensor.batched [2, 3, 4] [⟨1, 0⟩, ⟨2, 2⟩],
        Tensor.plain [5, 6]] : List Tensor).length) ∧
    ((MultiBatchVmapTransform.logicalToPhysicalList
        [Tensor.batched [2, 3, 4] [⟨1, 0⟩, ⟨2, 2⟩],
          Tensor.plain [5, 6]]).getD 1 ⟨0, []⟩).levels_
      = (([Tensor.batched [2, 3, 4] [⟨1, 0⟩, ⟨2, 2⟩],
          Tensor.plain [5, 6]] : List Tensor).getD 1
            (Tensor.plain [])).levelSet ∧
    (MultiBatchVmapTransform.logicalToPhysicalList
        [Tensor.batched [2, 3, 4] [⟨1, 0⟩, ⟨2, 2⟩],
          Tensor.plain [5, 6]]).getD 1 ⟨0, []⟩
      = ⟨0, [5, 6]⟩ :=
  ⟨by decide,
    (multiBatch_list_independent _ 1 (by decide)).1,
    (multiBatch_list_independent _ 1 (by decide)).2 [5, 6] (by decide)⟩

/- ## C4: union law of the broadcasting transform -/

theorem testBit_unionLevelSet (ts : List Tensor) (j : Nat) :
    (unionLevelSet ts).testBit j
      = ts.any (fun t => t.levelSet.testBit j) := by
  induction ts with
  | nil => simp [unionLevelSet, Nat.zero_testBit]
  | cons t rest ih =>
    have hstep : unionLevelSet (t :: rest)
        = t.levelSet ||| unionLevelSet rest := rfl
    rw [hstep, Nat.testBit_lor, ih, List.any_cons]

/-- C4. Union law: every view returned by
`BroadcastingVmapTransform.logicalToPhysical` has the same `levels` field,
equal to the union of the level sets of all the inputs (bit `j` is set iff
some input has level `j`). -/
theorem broadcasting_union_law (ts : List Tensor) (v : VmapPhysicalView)
    (hv : v ∈ BroadcastingVmapTransform.logicalToPhysical ts) :
    v.levels_ = unionLevelSet ts ∧
    ∀ j, (unionLevelSet ts).testBit j
      = ts.any (fun t => t.levelSet.testBit j) := by
  constructor
  · obtain ⟨t, _, rfl⟩ := List.mem_map.1 hv
    rfl
  · exact fun j => testBit_unionLevelSet ts j

/-- Witness for C4 at Example 3's inputs: a value batched at level 1 and
an unbatched value; the first output view. -/
theorem broadcasting_union_law_witness :
    ((⟨2, [7, 2]⟩ : VmapPhysicalView)
        ∈ BroadcastingVmapTransform.logicalToPhysical
            [Tensor.batched [7, 2] [⟨1, 0⟩], Tensor.plain [2]]) ∧
    (⟨2, [7, 2]⟩ : VmapPhysicalView).levels_
      = unionLevelSet [Tensor.batched [7, 2] [⟨1, 0⟩], Tensor.plain [2]] ∧
    (unionLevelSet
        [Tensor.batched [7, 2] [⟨1, 0⟩], Tensor.plain [2]]).testBit 1
      = ([Tensor.batched [7, 2] [⟨1, 0⟩], Tensor.plain [2]] :
          List Tensor).any (fun t => t.levelSet.testBit 1) :=
  ⟨by decide,
    (broadcasting_union_law _ _ (by decide)).1,
    (broadcasting_union_law _ ⟨2, [7, 2]⟩ (by decide)).2 1⟩

/- ## C5: broadcast-rank law -/

theorem logicalRank_le_maxLogicalRank (ts : List Tensor) (t : Tensor)
    (ht : t ∈ ts) : t.logicalShape.length ≤ maxLogicalRank ts := by
  induction ts with
  | nil => cases ht
  | cons u rest ih =>
    have hstep : maxLogicalRank (u :: rest)
        = max u.logicalShape.length (maxLogicalRank rest) := rfl
    rw [hstep]
    rcases List.mem_cons.1 ht with rfl | hmem
    · exact Nat.le_max_left _ _
    · exact Nat.le_trans (ih hmem) (Nat.le_max_right _ _)

theorem getD_broadcastingList (ts : List Tensor) (i : Nat)
    (h : i < ts.length) :
    (BroadcastingVmapTransform.logicalToPhysical ts).getD i ⟨0, []⟩
      = ⟨unionLevelSet ts,
          broadcastShape (unionLevelSet ts) (maxLogicalRank ts)
            (ts.getD i (Tensor.plain []))⟩ := by
  unfold BroadcastingVmapTransform.logicalToPhysical
  rw [List.getD_eq_getElem _ _ (by simpa using h), List.getElem_map,
    List.getD_eq_getElem _ _ h]

theorem broadcastBatchSizeAt_absent (t : Tensor) (l : Nat)
    (hl : t.levelSet.testBit l = false) :
    broadcastBatchSizeAt t l = 1 := by
  cases t with
  | plain s => rfl
  | batched phys bdims =>
    have hstep : broadcastBatchSizeAt (Tensor.batched phys bdims) l
        = match bdims.find? (fun b => b.level == l) with
          | some b => phys.getD b.dim 1
          | none => 1 := rfl
    rw [hstep]
    cases hfind : bdims.find? (fun b => b.level == l) with
    | none => rfl
    | some b =>
      have hb : b ∈ bdims := List.mem_of_find?_eq_some hfind
      have hbl : b.level = l := by simpa using List.find?_some hfind
      have : (createVmapLevelsBitset bdims).testBit l = true :=
        (testBit_createVmapLevelsBitset bdims l).2 ⟨b, hb, hbl⟩
      rw [show Tensor.levelSet (Tensor.batched phys bdims)
          = createVmapLevelsBitset bdims from rfl] at hl
      rw [this] at hl
      cases hl

/-- C5. Broadcast-rank law: the `i`-th view returned by the broadcasting
transform wraps a tensor of total rank
`cardinality(unionLevels) + maxNonBatchRank`; its shape is the per-level
batch front, then `maxNonBatchRank - r_i` size-1 alignment dims, then the
value's own logical shape, and a level absent from the value contributes
a size-1 front slot. -/
theorem broadcasting_rank_law (ts : List Tensor) (i : Nat)
    (h : i < ts.length) :
    ((BroadcastingVmapTransform.logicalToPhysical ts).getD i
        ⟨0, []⟩).tensor_.length
      = levelSetCard (unionLevelSet ts) + maxLogicalRank ts ∧
    ((BroadcastingVmapTransform.logicalToPhysical ts).getD i
        ⟨0, []⟩).tensor_
      = (ascendingLevels (unionLevelSet ts)).map
          (broadcastBatchSizeAt (ts.getD i (Tensor.plain [])))
        ++ List.replicate (maxLogicalRank ts
            - (ts.getD i (Tensor.plain [])).logicalShape.length) 1
        ++ (ts.getD i (Tensor.plain [])).logicalShape ∧
    (∀ l, (ts.getD i (Tensor.plain [])).levelSet.testBit l = false →
      broadcastBatchSizeAt (ts.getD i (Tensor.plain [])) l = 1) := by
  rw [getD_broadcastingList ts i h]
  refine ⟨?_, rfl, fun l hl => broadcastBatchSizeAt_absent _ l hl⟩
  show (broadcastShape (unionLevelSet ts) (maxLogicalRank ts)
      (ts.getD i (Tensor.plain []))).length = _
  have hmem : ts.getD i (Tensor.plain []) ∈ ts := by
    rw [List.getD_eq_getElem _ _ h]
    exact List.getElem_mem h
  have hr : (ts.getD i (Tensor.plain [])).logicalShape.length
      ≤ maxLogicalRank ts :=
    logicalRank_le_maxLogicalRank ts _ hmem
  unfold broadcastShape
  rw [List.length_append, List.length_append, List.length_map,
    List.length_replicate]
  unfold levelSetCard
  omega

/-- Witness for C5 at Example 2's inputs: values of physical shapes
`[7,2]` and `[7,3,2]`, both batched at level 1; the first output view. -/
theorem broadcasting_rank_law_witness :
    (0 < ([Tensor.batched [7, 2] [⟨1, 0⟩],
        Tensor.batched [7, 3, 2] [⟨1, 0⟩]] : List Tensor).length) ∧
    ((BroadcastingVmapTransform.logicalToPhysical
        [Tensor.batched [7, 2] [⟨1, 0⟩],
          Tensor.batched [7, 3, 2] [⟨1, 0⟩]]).getD 0
        ⟨0, []⟩).tensor_.length
      = levelSetCard (unionLevelSet
          [Tensor.batched [7, 2] [⟨1, 0⟩],
            Tensor.batched [7, 3, 2] [⟨1, 0⟩]])
        + maxLogicalRank
            [Tensor.batched [7, 2] [⟨1, 0⟩],
              Tensor.batched [7, 3, 2] [⟨1, 0⟩]] ∧
    ((BroadcastingVmapTransform.logicalToPhysical
        [Tensor.batched [7, 2] [⟨1, 0⟩],
          Tensor.batched [7, 3, 2] [⟨1, 0⟩]]).getD 0
        ⟨0, []⟩).tensor_
      = (ascendingLevels (unionLevelSet
          [Tensor.batched [7, 2] [⟨1, 0⟩],
            Tensor.batched [7, 3, 2] [⟨1, 0⟩]])).map
          (broadcastBatchSizeAt (([Tensor.batched [7, 2] [⟨1, 0⟩],
            Tensor.batched [7, 3, 2] [⟨1, 0⟩]] : List Tensor).getD 0
              (Tensor.plain [])))
        ++ List.replicate (maxLogicalRank
            [Tensor.batched [7, 2] [⟨1, 0⟩],
              Tensor.batched [7, 3, 2] [⟨1, 0⟩]]
            - (([Tensor.batched [7, 2] [⟨1, 0⟩],
              Tensor.batched [7, 3, 2] [⟨1, 0⟩]] : List Tensor).getD 0
                (Tensor.plain [])).logicalShape.length) 1
        ++ (([Tensor.batched [7, 2] [⟨1, 0⟩],
            Tensor.batched [7, 3, 2] [⟨1, 0⟩]] : List Tensor).getD 0
              (Tensor.plain [])).logicalShape ∧
    broadcastBatchSizeAt (([Tensor.batched [7, 2] [⟨1, 0⟩],
        Tensor.batched [7, 3, 2] [⟨1, 0⟩]] : List Tensor).getD 0
          (Tensor.plain [])) 2 = 1 :=
  ⟨by decide,
    (broadcasting_rank_law _ 0 (by decide)).1,
    (broadcasting_rank_law _ 0 (by decide)).2.1,
    (broadcasting_rank_law _ 0 (by decide)).2.2 2 (by decide)⟩

/- ## C7: the constructor's only failure mode -/

/-- C7. The `VmapPhysicalView` constructor fails fatally (the internal
assertion `!isBatched(tensor)`, modelled as `none`) iff the tensor is
itself a logical/batched value; on a non-batched tensor it always
succeeds, storing the tensor and the levels. -/
theorem makePhysicalView_fails_iff (t : Tensor) (levels : LevelSetBits) :
    (makePhysicalView t levels = none ↔ isBatched t = true) ∧
    (isBatched t = false →
      makePhysicalView t levels = some ⟨levels, t.underlyingShape⟩) := by
  unfold makePhysicalView
  cases t <;> simp [isBatched]

/-- Witness for C7: construction fails on a batched value and succeeds on
a plain one. -/
theorem makePhysicalView_fails_iff_witness :
    makePhysicalView (Tensor.batched [2, 3] [⟨1, 0⟩]) 0 = none ∧
    makePhysicalView (Tensor.plain [2, 3]) 0 = some ⟨0, [2, 3]⟩ :=
  ⟨(makePhysicalView_fails_iff (Tensor.batched [2, 3] [⟨1, 0⟩]) 0).1.mpr
      (by decide),
    (makePhysicalView_fails_iff (Tensor.plain [2, 3]) 0).2 (by decide)⟩

/- ## C8: zero-batch inputs through the broadcasting transform -/

/-- C8. The broadcasting transform raises no error for an input with zero
batch dimensions: a plain value simply receives `k` synthetic size-1
front dims (`k` = cardinality of the union level set), then the usual
size-1 alignment dims, then its own shape; in particular, for a value of
logical shape `(2,)` batched at level 1 (physical shape `(b,2)`) together
with a plain `(2,)` value, the outputs have physical shapes `(b,2)` and
`(1,2)`. -/
theorem broadcasting_zero_batch (ts : List Tensor) (i : Nat)
    (s : List Nat) (h : i < ts.length)
    (hs : ts.getD i (Tensor.plain []) = Tensor.plain s) :
    ((BroadcastingVmapTransform.logicalToPhysical ts).getD i
        ⟨0, []⟩).tensor_
      = List.replicate (levelSetCard (unionLevelSet ts)) 1
        ++ List.replicate (maxLogicalRank ts - s.length) 1 ++ s ∧
    (∀ b : Nat,
      (BroadcastingVmapTransform.logicalToPhysical
          [Tensor.batched [b, 2] [⟨1, 0⟩], Tensor.plain [2]]).map
        (fun v => v.tensor_) = [[b, 2], [1, 2]]) := by
  constructor
  · rw [getD_broadcastingList ts i h, hs]
    show broadcastShape (unionLevelSet ts) (maxLogicalRank ts)
        (Tensor.plain s) = _
    unfold broadcastShape
    have hfront : (ascendingLevels (unionLevelSet ts)).map
        (broadcastBatchSizeAt (Tensor.plain s))
        = List.replicate (levelSetCard (unionLevelSet ts)) 1 := by
      rw [show broadcastBatchSizeAt (Tensor.plain s) = fun _ => 1 from rfl,
        List.map_const']
      rfl
    rw [hfront]
    rfl
  · intro b
    have hu : unionLevelSet
        [Tensor.batched [b, 2] [⟨1, 0⟩], Tensor.plain [2]] = 2 := by
      show ((0 ||| 1 <<< 1) ||| (0 ||| 0) : Nat) = 2
      decide
    have hm : maxLogicalRank
        [Tensor.batched [b, 2] [⟨1, 0⟩], Tensor.plain [2]] = 1 := rfl
    have ha : ascendingLevels 2 = [1] := by decide
    show [broadcastShape
        (unionLevelSet [Tensor.batched [b, 2] [⟨1, 0⟩], Tensor.plain [2]])
        (maxLogicalRank [Tensor.batched [b, 2] [⟨1, 0⟩], Tensor.plain [2]])
        (Tensor.batched [b, 2] [⟨1, 0⟩]),
      broadcastShape
        (unionLevelSet [Tensor.batched [b, 2] [⟨1, 0⟩], Tensor.plain [2]])
        (maxLogicalRank [Tensor.batched [b, 2] [⟨1, 0⟩], Tensor.plain [2]])
        (Tensor.plain [2])] = [[b, 2], [1, 2]]
    rw [hu, hm]
    unfold broadcastShape
    rw [ha]
    rfl

/-- Witness for C8: three values, the third plain with the maximal
logical rank. -/
theorem broadcasting_zero_batch_witness :
    (2 < ([Tensor.batched [7, 2] [⟨1, 0⟩],
        Tensor.batched [5, 3, 2] [⟨2, 0⟩],
        Tensor.plain [4, 3, 2]] : List Tensor).length) ∧
    (([Tensor.batched [7, 2] [⟨1, 0⟩],
        Tensor.batched [5, 3, 2] [⟨2, 0⟩],
        Tensor.plain [4, 3, 2]] : List Tensor).getD 2 (Tensor.plain [])
      = Tensor.plain [4, 3, 2]) ∧
    ((BroadcastingVmapTransform.logicalToPhysical
        [Tensor.batched [7, 2] [⟨1, 0⟩],
          Tensor.batched [5, 3, 2] [⟨2, 0⟩],
          Tensor.plain [4, 3, 2]]).getD 2 ⟨0, []⟩).tensor_
      = List.replicate (levelSetCard (unionLevelSet
          [Tensor.batched [7, 2] [⟨1, 0⟩],
            Tensor.batched [5, 3, 2] [⟨2, 0⟩],
            Tensor.plain [4, 3, 2]])) 1
        ++ List.replicate (maxLogicalRank
            [Tensor.batched [7, 2] [⟨1, 0⟩],
              Tensor.batched [5, 3, 2] [⟨2, 0⟩],
              Tensor.plain [4, 3, 2]] - ([4, 3, 2] : List Nat).length) 1
        ++ [4, 3, 2] ∧
    (BroadcastingVmapTransform.logicalToPhysical
        [Tensor.batched [9, 2] [⟨1, 0⟩], Tensor.plain [2]]).map
      (fun v => v.tensor_) = [[9, 2], [1, 2]] :=
  ⟨by decide, by decide,
    (broadcasting_zero_batch _ 2 [4, 3, 2] (by decide) (by decide)).1,
    (broadcasting_zero_batch
        [Tensor.batched [7, 2] [⟨1, 0⟩],
          Tensor.batched [5, 3, 2] [⟨2, 0⟩],
          Tensor.plain [4, 3, 2]] 2 [4, 3, 2]
        (by decide) (by decide)).2 9⟩

/- ## C9: cardinality law -/

/-- C9. Cardinality law: `numBatchDims()` equals the number of set bits
of the view's levels bitset, and `numLogicalDims()` equals the rank of
the stored tensor minus `numBatchDims()`. -/
theorem cardinality_law (v : VmapPhysicalView) :
    v.numBatchDims
      = ((Finset.range kVmapNumLevels).filter
          (fun i => v.levels_.testBit i = true)).card ∧
    v.numLogicalDims = v.tensor_.length - v.numBatchDims := by
  refine ⟨?_, rfl⟩
  show levelSetCard v.levels_ = _
  unfold levelSetCard ascendingLevels
  rw [Finset.card_def, Finset.filter_val, Finset.range_val,
    show Multiset.range kVmapNumLevels
      = ((List.range kVmapNumLevels : List Nat) : Multiset Nat) from rfl,
    Multiset.filter_coe, Multiset.coe_card]
  congr 1
  apply List.filter_congr
  intro x _
  simp

/-- Witness for C9 at the Example 1 view. -/
theorem cardinality_law_witness :
    VmapPhysicalView.numBatchDims ⟨(1 <<< 1) ||| (1 <<< 3), [2, 3, 4, 5]⟩
      = ((Finset.range kVmapNumLevels).filter
          (fun i => Nat.testBit ((1 <<< 1) ||| (1 <<< 3)) i = true)).card ∧
    VmapPhysicalView.numLogicalDims ⟨(1 <<< 1) ||| (1 <<< 3), [2, 3, 4, 5]⟩
      = ([2, 3, 4, 5] : List Nat).length
        - VmapPhysicalView.numBatchDims
            ⟨(1 <<< 1) ||| (1 <<< 3), [2, 3, 4, 5]⟩ :=
  cardinality_law ⟨(1 <<< 1) ||| (1 <<< 3), [2, 3, 4, 5]⟩

/- ## C10: frame property of the view's operations -/

/-- C10. Frame property: no member call (`tensor()`, `getPhysicalDim`,
`getPhysicalDims`, `newLogicalFromPhysical`) changes the view's stored
levels bitset or replaces its stored tensor — after any sequence of calls
the view state is unchanged, and a further call returns exactly what it
would return on the freshly constructed view, so calls can be repeated
with identical results for identical arguments. -/
theorem view_ops_frame (v : VmapPhysicalView) (ops : List ViewOp)
    (op : ViewOp) :
    runOps v ops = v ∧ runOp (runOps v ops) op = (v, (runOp v op).2) := by
  have hstate : runOps v ops = v := by
    induction ops with
    | nil => rfl
    | cons o os ih =>
      have h1 : (runOp v o).1 = v := by cases o <;> rfl
      show runOps (runOp v o).1 os = v
      rw [h1]
      exact ih
  refine ⟨hstate, ?_⟩
  rw [hstate]
  cases op <;> rfl

end Vmap
